import Mathlib

/-! Content negotiation of the exposition format (`expfmt/expfmt.go`)

A shallow embedding of `formatType` and `New` of package `expfmt`, with the
types of the accept-header parser package `goautoneg` that they use.

* Go strings are `String`; a Go `map[string]string` is an association list
  read with `mapIndex`, which gives `""` on an absent key as the Go index
  expression does.
* `formatType` takes the accept-header parser as a parameter, since the parser
  lives in another package; `goautoneg.ParseAccept` below is a model of that
  parser written from the specification.
-/

set_option autoImplicit false

namespace goautoneg

/-- Quality weight of a media range, the exact decimal `mant / 10 ^ scale`. -/
structure Weight where
  mant : Nat
  scale : Nat
deriving DecidableEq, Repr

/-- Structure `Accept`: one clause of an Accept header (`Type` is spelled `Typ`). -/
structure Accept where
  Typ : String
  SubType : String
  Q : Weight
  Params : List (String × String)
deriving DecidableEq, Repr

/-- Split a character list at every occurrence of `sep`; the result is never empty. -/
def splitOn (sep : Char) : List Char → List (List Char)
  | [] => [[]]
  | c :: cs =>
    if c = sep then [] :: splitOn sep cs
    else
      match splitOn sep cs with
      | [] => [[c]]
      | piece :: pieces => (c :: piece) :: pieces

/-- Drop the spaces at both ends. -/
def trim (cs : List Char) : List Char :=
  ((cs.dropWhile (fun c => c = ' ')).reverse.dropWhile (fun c => c = ' ')).reverse

/-- Value of a decimal digit. -/
def digit? (c : Char) : Option Nat :=
  if '0' ≤ c ∧ c ≤ '9' then some (c.toNat - '0'.toNat) else none

/-- Read a run of decimal digits after the value `acc`; `none` on any other character. -/
def digits? : Nat → List Char → Option Nat
  | acc, [] => some acc
  | acc, c :: cs =>
    match digit? c with
    | some d => digits? (10 * acc + d) cs
    | none => none

/-- Read a quality weight written as a decimal number (`1`, `0.5`, `.75`, `1.`);
`none` when the text is not such a number. -/
def parseWeight (cs : List Char) : Option Weight :=
  match splitOn '.' cs with
  | [i] => if i = [] then none else (digits? 0 i).map (fun m => ⟨m, 0⟩)
  | [i, f] =>
    if i = [] ∧ f = [] then none else (digits? 0 (i ++ f)).map (fun m => ⟨m, f.length⟩)
  | _ => none

/-- Store `v` under `k` in a parameter map: overwrite the value in place when the key is
present, append the pair otherwise. -/
def mapSet : List (String × String) → String → String → List (String × String)
  | [], k, v => [(k, v)]
  | (k', v') :: rest, k, v => if k' = k then (k', v) :: rest else (k', v') :: mapSet rest k v

/-- Read the `;key=value` parameters of one segment into the clause `a`. A piece
without `=` is passed over, `q` sets the quality weight, and an unparsable weight
makes the whole segment malformed (`none`). -/
def parseParams : Accept → List (List Char) → Option Accept
  | a, [] => some a
  | a, param :: params =>
    match splitOn '=' param with
    | [] => parseParams a params
    | [_] => parseParams a params
    | key :: v :: vs =>
      let value := List.intercalate ['='] (v :: vs)
      if trim key = ['q'] then
        match parseWeight (trim value) with
        | some w => parseParams { a with Q := w } params
        | none => none
      else
        parseParams { a with Params := mapSet a.Params (String.mk (trim key)) (String.mk (trim value)) }
          params

/-- Read one comma-separated segment: `type/subtype` followed by parameters. A segment
without exactly one `/` between type and subtype is malformed (`none`). -/
def parseSegment (seg : List Char) : Option Accept :=
  match splitOn ';' (trim seg) with
  | [] => none
  | range :: params =>
    match splitOn '/' range with
    | [t, s] => parseParams ⟨String.mk (trim t), String.mk (trim s), ⟨1, 0⟩, []⟩ params
    | _ => none

/-- Exact comparison of two weights: `a` is strictly heavier than `b`. -/
def Weight.gt (a b : Weight) : Bool :=
  decide (b.mant * 10 ^ a.scale < a.mant * 10 ^ b.scale)

/-- Specificity of a media range: 2 for an exact type and subtype, 1 for a wildcard
subtype, 0 for a wildcard type. -/
def specificity (a : Accept) : Nat :=
  if a.Typ = "*" then 0 else if a.SubType = "*" then 1 else 2

/-- Clause `a` is strictly preferred to `b`: heavier, or as heavy and more specific. -/
def preferred (a b : Accept) : Bool :=
  a.Q.gt b.Q || (!b.Q.gt a.Q && decide (specificity b < specificity a))

/-- Insert `a` before the first clause that is not strictly preferred to it. -/
def rankInsert (a : Accept) : List Accept → List Accept
  | [] => [a]
  | b :: rest => if preferred b a then b :: rankInsert a rest else a :: b :: rest

/-- Stable sort by descending preference: clauses that tie keep their input order. -/
def rank : List Accept → List Accept
  | [] => []
  | a :: rest => rankInsert a (rank rest)

/-- Modelled from the spec: the accept-header parser `ParseAccept` of the external package
`goautoneg`, which the repository imports and does not contain. Section 4.1 of the
specification: the header is a comma-separated list of media ranges, each with optional
`;key=value` parameters, among them the quality weight `q`; the clauses come out ordered by
weight descending (1.0 when absent), then by specificity, then by input order; malformed
segments (unparsable weight, no `/` between type and subtype) are skipped; the empty header
gives the empty sequence. -/
def ParseAccept (header : String) : List Accept :=
  rank ((splitOn ',' header.data).filterMap parseSegment)

end goautoneg

namespace expfmt

open goautoneg

def ProtocolVersion : String := "0.0.4"

def FmtText : String := "text/plain; version=" ++ ProtocolVersion

def FmtProtoDelim : String :=
  "application/vnd.google.protobuf; proto=io.prometheus.client.MetricFamily; encoding=delimited"

def FmtProtoText : String :=
  "application/vnd.google.protobuf; proto=io.prometheus.client.MetricFamily; encoding=text"

def FmtProtoCompact : String :=
  "application/vnd.google.protobuf; proto=io.prometheus.client.MetricFamily; encoding=compact-text"

def protoType : String := "application"

def protoSubType : String := "vnd.google.protobuf"

def protoProto : String := "io.prometheus.client.MetricFamily"

/-- Go index expression `m[k]` on a `map[string]string`: the value stored under `k`,
and the zero value `""` when `k` is absent. -/
def mapIndex : List (String × String) → String → String
  | [], _ => ""
  | (k', v) :: rest, k => if k' = k then v else mapIndex rest k

/-- Presence test `_, ok := m[k]` on a `map[string]string`. -/
def mapHas : List (String × String) → String → Bool
  | [], _ => false
  | (k', _) :: rest, k => if k' = k then true else mapHas rest k

/-- Lines 89-98 of one loop iteration of `formatType`: the protocol buffer check.
`some ct` when the iteration returns `ct` from inside the `switch`, `none` when
control falls through to the text check. -/
def formatType.protoCheck (ac : Accept) : Option String :=
  if ac.Typ = protoType ∧ ac.SubType = protoSubType ∧ mapIndex ac.Params "proto" = protoProto then
    if mapIndex ac.Params "encoding" = "delimited" then some FmtProtoDelim
    else if mapIndex ac.Params "encoding" = "text" then some FmtProtoText
    else if mapIndex ac.Params "encoding" = "compact-text" then some FmtProtoCompact
    else none
  else none

/-- Lines 100-103 of one loop iteration of `formatType`: the text format check. -/
def formatType.textCheck (ac : Accept) : Option String :=
  let ver := mapIndex ac.Params "version"
  if ac.Typ = "text" ∧ ac.SubType = "plain" ∧ (ver = "0.0.4" ∨ ver = "") then some FmtText
  else none

/-- One iteration of the `for` loop of `formatType`: the protocol buffer check, and
the text check when the former did not return. `none` when the loop continues. -/
def formatType.body (ac : Accept) : Option String :=
  match formatType.protoCheck ac with
  | some ct => some ct
  | none => formatType.textCheck ac

/-- The `for` loop of `formatType` over the parsed clauses, with the final
`return FmtText`. -/
def formatType.loop : List Accept → String
  | [] => FmtText
  | ac :: rest =>
    match formatType.body ac with
    | some ct => ct
    | none => formatType.loop rest

/-- Function `formatType`: the Content-Type for an Accept header; `ParseAccept` is the
parser of package `goautoneg`. -/
def formatType (ParseAccept : String → List Accept) (as : String) : String :=
  formatType.loop (ParseAccept as)

/-- Type `http.Header`: a map from header names to their values. -/
abbrev Header := List (String × List String)

/-- Method `Header.Get`: the first value stored under `key`, `""` when there is none. -/
def Header.Get : Header → String → String
  | [], _ => ""
  | (k, vs) :: rest, key => if k = key then vs.headD "" else Header.Get rest key

/-- Interface `io.Writer` over a sink state `σ`: `Write` takes the sink and the bytes to
write and gives the sink afterwards, the number of bytes written and the error (`none`
for `nil`). -/
structure Writer (σ Err : Type) where
  Write : σ → String → σ × Nat × Option Err

/-- The encoding functions of other packages that `New` binds, over records `MF`. -/
structure Codecs (σ Err MF : Type) where
  /-- Function `pbutil.WriteDelimited`. -/
  WriteDelimited : Writer σ Err → MF → σ → σ × Nat × Option Err
  /-- Function `text.MetricFamilyToText`. -/
  MetricFamilyToText : Writer σ Err → MF → σ → σ × Nat × Option Err
  /-- Function `proto.MarshalTextString`. -/
  MarshalTextString : MF → String
  /-- Method `String` of a metric family. -/
  MetricFamilyString : MF → String

/-- Function `fmt.Fprintln` with one string operand: the operand and a newline go to the
writer in one `Write`. -/
def Fprintln {σ Err : Type} (w : Writer σ Err) (s : String) (sink : σ) : σ × Nat × Option Err :=
  w.Write sink (s ++ "\n")

/-- Type `encoder`: a function from a record to an error, which also changes the sink. -/
abbrev encoder (σ Err MF : Type) := MF → σ → σ × Option Err

/-- Method `encoder.Encode`. -/
def encoder.Encode {σ Err MF : Type} (e : encoder σ Err MF) (v : MF) (sink : σ) : σ × Option Err :=
  e v sink

/-- The branches of the `switch` in `New`. -/
inductive New.Case where
  | protoDelim
  | protoCompact
  | protoText
  | default
deriving DecidableEq, Repr

/-- The branch the `switch ct` of `New` takes: the cases are tried in source order. -/
def New.switch (ct : String) : New.Case :=
  if ct = FmtProtoDelim then .protoDelim
  else if ct = FmtProtoCompact then .protoCompact
  else if ct = FmtProtoText then .protoText
  else .default

/-- The closure each branch of `New` assigns to `e`; the byte count is dropped. -/
def New.closure {σ Err MF : Type} (X : Codecs σ Err MF) (w : Writer σ Err) :
    New.Case → encoder σ Err MF
  | .protoDelim => fun v sink =>
      let r := X.WriteDelimited w v sink
      (r.1, r.2.2)
  | .protoCompact => fun v sink =>
      let r := Fprintln w (X.MetricFamilyString v) sink
      (r.1, r.2.2)
  | .protoText => fun v sink =>
      let r := Fprintln w (X.MarshalTextString v) sink
      (r.1, r.2.2)
  | .default => fun v sink =>
      let r := X.MetricFamilyToText w v sink
      (r.1, r.2.2)

/-- Function `New`: the encoder and the content type negotiated from the Accept header. -/
def New {σ Err MF : Type} (X : Codecs σ Err MF) (ParseAccept : String → List Accept)
    (w : Writer σ Err) (h : Header) : encoder σ Err MF × String :=
  let ct := formatType ParseAccept (h.Get "Accept")
  (New.closure X w (New.switch ct), ct)

/-- A `text/plain` clause whose `version` parameter is present with the empty value, as
read from the segment `text/plain;version=`. -/
def emptyVersionClause : Accept :=
  ⟨"text", "plain", ⟨1, 0⟩, [("version", "")]⟩

/-- A protocol buffer clause with the delimited encoding. -/
def protoDelimClause : Accept :=
  ⟨"application", "vnd.google.protobuf", ⟨1, 0⟩,
    [("proto", "io.prometheus.client.MetricFamily"), ("encoding", "delimited")]⟩

/-- A writer that appends to a string buffer and never fails. -/
def bufferWriter : Writer String String :=
  ⟨fun sink bytes => (sink ++ bytes, bytes.length, none)⟩

/-- Sample encoding functions over records that are strings: each writes the record with
a mark of the function in front. -/
def sampleCodecs : Codecs String String String where
  WriteDelimited := fun w v sink => w.Write sink ("D" ++ v)
  MetricFamilyToText := fun w v sink => w.Write sink ("T" ++ v)
  MarshalTextString := fun v => "M" ++ v
  MetricFamilyString := fun v => "S" ++ v

/-- Two clauses agree on what `formatType` reads: the type, the subtype and the values
of the parameters `proto`, `encoding` and `version` as the map index gives them. -/
def agreeOnRead (a b : Accept) : Prop :=
  a.Typ = b.Typ ∧ a.SubType = b.SubType ∧
    mapIndex a.Params "proto" = mapIndex b.Params "proto" ∧
    mapIndex a.Params "encoding" = mapIndex b.Params "encoding" ∧
    mapIndex a.Params "version" = mapIndex b.Params "version"

instance agreeOnRead.decidable (a b : Accept) : Decidable (agreeOnRead a b) :=
  inferInstanceAs (Decidable (a.Typ = b.Typ ∧ a.SubType = b.SubType ∧
    mapIndex a.Params "proto" = mapIndex b.Params "proto" ∧
    mapIndex a.Params "encoding" = mapIndex b.Params "encoding" ∧
    mapIndex a.Params "version" = mapIndex b.Params "version"))

/-- A wildcard media range: the type or the subtype is `*`. -/
def isWildcard (c : Accept) : Prop :=
  c.Typ = "*" ∨ c.SubType = "*"

instance isWildcard.decidable (c : Accept) : Decidable (isWildcard c) :=
  inferInstanceAs (Decidable (c.Typ = "*" ∨ c.SubType = "*"))

/-- A protocol buffer clause with the compact-text encoding. -/
def protoCompactClause : Accept :=
  ⟨"application", "vnd.google.protobuf", ⟨1, 0⟩,
    [("proto", "io.prometheus.client.MetricFamily"), ("encoding", "compact-text")]⟩

/-- Version test of rule (b) as the specification words it: the `version` parameter is
absent or equal to the supported protocol version. -/
def versionAbsentOrEqual (c : Accept) : Bool :=
  !mapHas c.Params "version" || decide (mapIndex c.Params "version" = ProtocolVersion)

/-- Version test of rule (b) that also takes a `version` parameter with the empty value. -/
def versionAbsentEmptyOrEqual (c : Accept) : Bool :=
  !mapHas c.Params "version" || decide (mapIndex c.Params "version" = "") ||
    decide (mapIndex c.Params "version" = ProtocolVersion)

/-- Reference algorithm of the specification, section 4.2 step 2, for one candidate:
(a) if type and subtype are the protocol buffer media type and `proto` is the expected
message name, the `encoding` selects the format, and any other or absent value is no
match; (b) else if type and subtype are the plain-text media type and the version test
holds, the plain-text format; (c) else no match. -/
def referenceRule (versionOk : Accept → Bool) (c : Accept) : Option String :=
  if c.Typ = "application" ∧ c.SubType = "vnd.google.protobuf" ∧
      mapIndex c.Params "proto" = "io.prometheus.client.MetricFamily" then
    if mapIndex c.Params "encoding" = "delimited" then some FmtProtoDelim
    else if mapIndex c.Params "encoding" = "text" then some FmtProtoText
    else if mapIndex c.Params "encoding" = "compact-text" then some FmtProtoCompact
    else none
  else if c.Typ = "text" ∧ c.SubType = "plain" ∧ versionOk c = true then some FmtText
  else none

/-- Reference algorithm of the specification, section 4.2 steps 2 to 4: the first
candidate that matches wins, and the plain-text format is the fallback. -/
def referenceNegotiate (versionOk : Accept → Bool) : List Accept → String
  | [] => FmtText
  | c :: rest =>
    match referenceRule versionOk c with
    | some ct => ct
    | none => referenceNegotiate versionOk rest

/-- The value of a quality weight as a rational number. -/
def weightValue (w : Weight) : ℚ :=
  (w.mant : ℚ) / 10 ^ w.scale

/-- Sort key of a clause: its weight, then its specificity, compared lexicographically. -/
def rankKey (a : Accept) : Lex (ℚ × ℕ) :=
  toLex (weightValue a.Q, specificity a)

/-- Two clauses tie in the ranking: neither is strictly preferred to the other. -/
def tied (a b : Accept) : Bool :=
  !preferred a b && !preferred b a

/-- The text of the weight when the parameter piece `p` is a `q=` piece. -/
def weightText? (p : List Char) : Option (List Char) :=
  match splitOn '=' p with
  | key :: v :: vs => if trim key = ['q'] then some (trim (List.intercalate ['='] (v :: vs))) else none
  | _ => none

/-- The parameter pieces of a segment: what follows the media range, split at `;`. -/
def paramPieces (seg : List Char) : List (List Char) :=
  (splitOn ';' (trim seg)).tail

/-- The segment carries no `q` parameter. -/
def noWeightParam (seg : List Char) : Bool :=
  (paramPieces seg).all (fun p => (weightText? p).isNone)

/-- The segment carries a `q` parameter whose text is not a weight. -/
def badWeight (seg : List Char) : Bool :=
  (paramPieces seg).any (fun p =>
    match weightText? p with
    | some t => (parseWeight t).isNone
    | none => false)

/-- The media range of the segment has no `/` between type and subtype. -/
def lacksSlash (seg : List Char) : Bool :=
  !((splitOn ';' (trim seg)).headD []).contains '/'

/-- Join pieces with the separator `sep` between them. -/
def joinWith (sep : Char) : List (List Char) → List Char
  | [] => []
  | [s] => s
  | s :: t :: rest => s ++ sep :: joinWith sep (t :: rest)

/-- The header made of the given segments, separated by commas. -/
def joinSegments (segs : List (List Char)) : String :=
  String.mk (joinWith ',' segs)

/-! ## Lemmas on the two checks of a loop iteration -/

theorem mapIndex_of_mapHas_false (m : List (String × String)) (k : String)
    (h : mapHas m k = false) : mapIndex m k = "" := by
  induction m with
  | nil => rfl
  | cons p rest ih =>
    obtain ⟨k', v⟩ := p
    by_cases hk : k' = k
    · simp [mapHas, hk] at h
    · simp only [mapHas, hk, if_false] at h
      simp only [mapIndex, hk, if_false]
      exact ih h

theorem protoCheck_mem (ac : Accept) (ct : String) (h : formatType.protoCheck ac = some ct) :
    ct = FmtProtoDelim ∨ ct = FmtProtoText ∨ ct = FmtProtoCompact := by
  unfold formatType.protoCheck at h
  split_ifs at h <;> simp_all

theorem textCheck_eq (ac : Accept) (ct : String) (h : formatType.textCheck ac = some ct) :
    ct = FmtText := by
  unfold formatType.textCheck at h
  simp only at h
  split_ifs at h
  simp_all

theorem protoCheck_typ (ac : Accept) (ct : String) (h : formatType.protoCheck ac = some ct) :
    ac.Typ = "application" := by
  unfold formatType.protoCheck at h
  split_ifs at h with h1 <;> exact h1.1

theorem textCheck_typ (ac : Accept) (ct : String) (h : formatType.textCheck ac = some ct) :
    ac.Typ = "text" := by
  unfold formatType.textCheck at h
  simp only at h
  split_ifs at h with h1
  exact h1.1

theorem protoCheck_none_of_text (ac : Accept) (h : ac.Typ = "text") :
    formatType.protoCheck ac = none := by
  cases hp : formatType.protoCheck ac with
  | none => rfl
  | some ct =>
    have := protoCheck_typ ac ct hp
    rw [h] at this
    exact absurd this (by decide)

theorem textCheck_none_of_application (ac : Accept) (h : ac.Typ = "application") :
    formatType.textCheck ac = none := by
  cases hp : formatType.textCheck ac with
  | none => rfl
  | some ct =>
    have := textCheck_typ ac ct hp
    rw [h] at this
    exact absurd this (by decide)

theorem body_eq_of_check (ac : Accept) (ct : String)
    (h : formatType.protoCheck ac = some ct ∨ formatType.textCheck ac = some ct) :
    formatType.body ac = some ct := by
  unfold formatType.body
  rcases h with h | h
  · rw [h]
  · rw [protoCheck_none_of_text ac (textCheck_typ ac ct h)]
    exact h

theorem body_none_of_checks (ac : Accept)
    (h : formatType.protoCheck ac = none ∧ formatType.textCheck ac = none) :
    formatType.body ac = none := by
  unfold formatType.body
  rw [h.1]
  exact h.2

theorem loop_skip (ac : Accept) (rest : List Accept) (h : formatType.body ac = none) :
    formatType.loop (ac :: rest) = formatType.loop rest := by
  simp only [formatType.loop, h]

theorem loop_append_of_none (pre tail : List Accept)
    (h : ∀ x ∈ pre, formatType.body x = none) :
    formatType.loop (pre ++ tail) = formatType.loop tail := by
  induction pre with
  | nil => rfl
  | cons a pre ih =>
    rw [List.cons_append, loop_skip a _ (h a (List.mem_cons_self a pre))]
    exact ih (fun x hx => h x (List.mem_cons_of_mem a hx))

theorem loop_mem (cands : List Accept) :
    formatType.loop cands = FmtText ∨ formatType.loop cands = FmtProtoDelim ∨
      formatType.loop cands = FmtProtoText ∨ formatType.loop cands = FmtProtoCompact := by
  induction cands with
  | nil => exact Or.inl rfl
  | cons ac rest ih =>
    cases hb : formatType.body ac with
    | none => rw [loop_skip ac rest hb]; exact ih
    | some ct =>
      have hl : formatType.loop (ac :: rest) = ct := by simp only [formatType.loop, hb]
      rw [hl]
      unfold formatType.body at hb
      cases hp : formatType.protoCheck ac with
      | none =>
        rw [hp] at hb
        exact Or.inl (textCheck_eq ac ct hb)
      | some ct' =>
        rw [hp] at hb
        have hct : ct' = ct := by simpa using hb
        subst hct
        exact Or.inr (protoCheck_mem ac ct' hp)

theorem body_none_of_wildcard (c : Accept) (h : isWildcard c) : formatType.body c = none := by
  have hp : formatType.protoCheck c = none := by
    unfold formatType.protoCheck
    rw [if_neg]
    rintro ⟨h1, h2, _⟩
    rcases h with h | h
    · rw [h] at h1; exact absurd h1 (by decide)
    · rw [h] at h2; exact absurd h2 (by decide)
  have ht : formatType.textCheck c = none := by
    unfold formatType.textCheck
    simp only
    rw [if_neg]
    rintro ⟨h1, h2, _⟩
    rcases h with h | h
    · rw [h] at h1; exact absurd h1 (by decide)
    · rw [h] at h2; exact absurd h2 (by decide)
  exact body_none_of_checks c ⟨hp, ht⟩

theorem body_congr (a b : Accept) (h : agreeOnRead a b) : formatType.body a = formatType.body b := by
  obtain ⟨h1, h2, h3, h4, h5⟩ := h
  simp only [formatType.body, formatType.protoCheck, formatType.textCheck, h1, h2, h3, h4, h5]

theorem New_cases {σ Err MF : Type} (X : Codecs σ Err MF)
    (ParseAccept : String → List Accept) (w : Writer σ Err) (h : Header) :
    ((New X ParseAccept w h).2 = FmtText ∧
        (New X ParseAccept w h).1 = New.closure X w New.Case.default) ∨
      ((New X ParseAccept w h).2 = FmtProtoDelim ∧
        (New X ParseAccept w h).1 = New.closure X w New.Case.protoDelim) ∨
      ((New X ParseAccept w h).2 = FmtProtoText ∧
        (New X ParseAccept w h).1 = New.closure X w New.Case.protoText) ∨
      ((New X ParseAccept w h).2 = FmtProtoCompact ∧
        (New X ParseAccept w h).1 = New.closure X w New.Case.protoCompact) := by
  have key : ∀ ct : String, formatType ParseAccept (h.Get "Accept") = ct →
      ∀ k : New.Case, New.switch ct = k →
      (New X ParseAccept w h).2 = ct ∧ (New X ParseAccept w h).1 = New.closure X w k := by
    intro ct hct k hk
    subst hct
    subst hk
    exact ⟨rfl, rfl⟩
  rcases loop_mem (ParseAccept (h.Get "Accept")) with hm | hm | hm | hm
  · exact Or.inl (key _ hm _ (by decide))
  · exact Or.inr (Or.inl (key _ hm _ (by decide)))
  · exact Or.inr (Or.inr (Or.inl (key _ hm _ (by decide))))
  · exact Or.inr (Or.inr (Or.inr (key _ hm _ (by decide))))

theorem fmt_distinct :
    FmtText ≠ FmtProtoDelim ∧ FmtText ≠ FmtProtoText ∧ FmtText ≠ FmtProtoCompact ∧
      FmtProtoDelim ≠ FmtProtoText ∧ FmtProtoDelim ≠ FmtProtoCompact ∧
      FmtProtoText ≠ FmtProtoCompact := by
  decide

theorem body_eq_referenceRule (c : Accept) :
    formatType.body c = referenceRule versionAbsentEmptyOrEqual c := by
  by_cases hg : c.Typ = "application" ∧ c.SubType = "vnd.google.protobuf" ∧
      mapIndex c.Params "proto" = "io.prometheus.client.MetricFamily"
  · have hg' : c.Typ = protoType ∧ c.SubType = protoSubType ∧
        mapIndex c.Params "proto" = protoProto := hg
    have ht := textCheck_none_of_application c hg.1
    unfold formatType.body formatType.protoCheck referenceRule
    rw [if_pos hg', if_pos hg]
    split_ifs
    · rfl
    · rfl
    · rfl
    · exact ht
  · have hg' : ¬ (c.Typ = protoType ∧ c.SubType = protoSubType ∧
        mapIndex c.Params "proto" = protoProto) := hg
    have hp : formatType.protoCheck c = none := by
      unfold formatType.protoCheck
      rw [if_neg hg']
    unfold formatType.body referenceRule
    rw [hp, if_neg hg]
    unfold formatType.textCheck
    have hv : versionAbsentEmptyOrEqual c = true ↔
        (mapIndex c.Params "version" = "0.0.4" ∨ mapIndex c.Params "version" = "") := by
      unfold versionAbsentEmptyOrEqual ProtocolVersion
      constructor
      · intro h
        simp only [Bool.or_eq_true, Bool.not_eq_true', decide_eq_true_eq] at h
        rcases h with (h | h) | h
        · exact Or.inr (mapIndex_of_mapHas_false _ _ h)
        · exact Or.inr h
        · exact Or.inl h
      · intro h
        simp only [Bool.or_eq_true, Bool.not_eq_true', decide_eq_true_eq]
        rcases h with h | h
        · exact Or.inr h
        · exact Or.inl (Or.inr h)
    simp only [hv]

/-! ## The negotiation loop -/

/-- C1. First match wins: when the clauses before `c` match neither check and `c` matches
the protocol buffer check or the text check with format `ct`, `formatType` returns `ct`
whatever the clauses after `c` are; when no clause matches, it returns `FmtText`. -/
theorem formatType_first_match (ParseAccept : String → List Accept) (as : String) :
    (∀ (pre : List Accept) (c : Accept) (post : List Accept) (ct : String),
        ParseAccept as = pre ++ c :: post →
        (∀ x ∈ pre, formatType.protoCheck x = none ∧ formatType.textCheck x = none) →
        (formatType.protoCheck c = some ct ∨ formatType.textCheck c = some ct) →
        formatType ParseAccept as = ct) ∧
      ((∀ x ∈ ParseAccept as, formatType.protoCheck x = none ∧ formatType.textCheck x = none) →
        formatType ParseAccept as = FmtText) := by
  constructor
  · intro pre c post ct hsplit hpre hc
    unfold formatType
    rw [hsplit, loop_append_of_none pre (c :: post) (fun x hx => body_none_of_checks x (hpre x hx))]
    simp only [formatType.loop, body_eq_of_check c ct hc]
  · intro hall
    unfold formatType
    have h := loop_append_of_none (ParseAccept as) []
      (fun x hx => body_none_of_checks x (hall x hx))
    rw [List.append_nil] at h
    rw [h]
    rfl

/-- Witness of C1: in `text/plain;version=0.0.3, application/vnd.google.protobuf;...;encoding=text,
text/plain` the second clause is the first match and decides the result. -/
theorem formatType_first_match_witness :
    formatType ParseAccept
      "text/plain;version=0.0.3, application/vnd.google.protobuf;proto=io.prometheus.client.MetricFamily;encoding=text, text/plain"
      = FmtProtoText :=
  (formatType_first_match ParseAccept
    "text/plain;version=0.0.3, application/vnd.google.protobuf;proto=io.prometheus.client.MetricFamily;encoding=text, text/plain").1
    [⟨"text", "plain", ⟨1, 0⟩, [("version", "0.0.3")]⟩]
    ⟨"application", "vnd.google.protobuf", ⟨1, 0⟩,
      [("proto", "io.prometheus.client.MetricFamily"), ("encoding", "text")]⟩
    [⟨"text", "plain", ⟨1, 0⟩, []⟩]
    FmtProtoText (by decide) (by decide) (by decide)

/-- C2. Default fallback: when no clause parsed from the header matches a check, which
covers the empty clause list, `formatType` returns `text/plain; version=0.0.4`. -/
theorem formatType_default (ParseAccept : String → List Accept) (as : String)
    (h : ∀ x ∈ ParseAccept as, formatType.protoCheck x = none ∧ formatType.textCheck x = none) :
    formatType ParseAccept as = "text/plain; version=0.0.4" ∧
      formatType ParseAccept as = FmtText := by
  have h0 := loop_append_of_none (ParseAccept as) []
    (fun x hx => body_none_of_checks x (h x hx))
  rw [List.append_nil] at h0
  unfold formatType
  rw [h0]
  exact ⟨by decide, rfl⟩

/-- Witness of C2: the empty header, whose clause list is empty, and the header
`image/png, text/html` whose two clauses match nothing. -/
theorem formatType_default_witness :
    ParseAccept "" = [] ∧
      formatType ParseAccept "" = "text/plain; version=0.0.4" ∧
      formatType ParseAccept "image/png, text/html" = "text/plain; version=0.0.4" :=
  ⟨by decide, (formatType_default ParseAccept "" (by decide)).1,
    (formatType_default ParseAccept "image/png, text/html" (by decide)).1⟩

/-- C3. Closed result set: for every parser and header, the content type returned by
`formatType`, and so the one returned by `New`, is one of `FmtText`, `FmtProtoDelim`,
`FmtProtoText` and `FmtProtoCompact`. -/
theorem formatType_closed (ParseAccept : String → List Accept) (as : String) :
    (formatType ParseAccept as = FmtText ∨ formatType ParseAccept as = FmtProtoDelim ∨
        formatType ParseAccept as = FmtProtoText ∨ formatType ParseAccept as = FmtProtoCompact) ∧
      ∀ (σ Err MF : Type) (X : Codecs σ Err MF) (w : Writer σ Err) (h : Header),
        (New X ParseAccept w h).2 = FmtText ∨ (New X ParseAccept w h).2 = FmtProtoDelim ∨
          (New X ParseAccept w h).2 = FmtProtoText ∨
          (New X ParseAccept w h).2 = FmtProtoCompact :=
  ⟨loop_mem (ParseAccept as), fun _ _ _ _ _ h => loop_mem (ParseAccept (h.Get "Accept"))⟩

/-- C4. Protocol buffer rule: when the first clause has type `application`, subtype
`vnd.google.protobuf` and parameter `proto` equal to `io.prometheus.client.MetricFamily`,
`formatType` returns `FmtProtoDelim`, `FmtProtoText` or `FmtProtoCompact` as its `encoding`
is `delimited`, `text` or `compact-text`, whatever the other clauses and parameters. -/
theorem formatType_proto_rule (ParseAccept : String → List Accept) (as : String)
    (c : Accept) (rest : List Accept) (hparse : ParseAccept as = c :: rest)
    (hT : c.Typ = "application") (hS : c.SubType = "vnd.google.protobuf")
    (hP : mapIndex c.Params "proto" = "io.prometheus.client.MetricFamily") :
    (mapIndex c.Params "encoding" = "delimited" → formatType ParseAccept as = FmtProtoDelim) ∧
      (mapIndex c.Params "encoding" = "text" → formatType ParseAccept as = FmtProtoText) ∧
      (mapIndex c.Params "encoding" = "compact-text" →
        formatType ParseAccept as = FmtProtoCompact) := by
  have hguard : c.Typ = protoType ∧ c.SubType = protoSubType ∧
      mapIndex c.Params "proto" = protoProto := ⟨hT, hS, hP⟩
  refine ⟨fun hE => ?_, fun hE => ?_, fun hE => ?_⟩ <;>
    simp [formatType, hparse, formatType.loop, formatType.body, formatType.protoCheck, hguard, hE]

/-- Witness of C4: a compact-text protocol buffer clause with a further parameter, ahead
of a `text/plain` clause. -/
theorem formatType_proto_rule_witness :
    formatType ParseAccept
      "application/vnd.google.protobuf;proto=io.prometheus.client.MetricFamily;encoding=compact-text;x=y, text/plain"
      = FmtProtoCompact :=
  (formatType_proto_rule ParseAccept
    "application/vnd.google.protobuf;proto=io.prometheus.client.MetricFamily;encoding=compact-text;x=y, text/plain"
    ⟨"application", "vnd.google.protobuf", ⟨1, 0⟩,
      [("proto", "io.prometheus.client.MetricFamily"), ("encoding", "compact-text"), ("x", "y")]⟩
    [⟨"text", "plain", ⟨1, 0⟩, []⟩]
    (by decide) rfl rfl (by decide)).2.2 (by decide)

/-- Counterexample to C5 as stated: the clause `text/plain` with `version` present and
empty has a version other than `0.0.4`, yet the text check takes it, so the clause is
not skipped: ahead of a delimited protocol buffer clause it gives `FmtText`. -/
theorem text_rule_empty_version_counterexample :
    emptyVersionClause.Typ = "text" ∧ emptyVersionClause.SubType = "plain" ∧
      mapHas emptyVersionClause.Params "version" = true ∧
      mapIndex emptyVersionClause.Params "version" ≠ "0.0.4" ∧
      formatType.textCheck emptyVersionClause = some FmtText ∧
      formatType.loop (emptyVersionClause :: [protoDelimClause]) = FmtText ∧
      formatType.loop [protoDelimClause] = FmtProtoDelim ∧
      formatType.loop (emptyVersionClause :: [protoDelimClause]) ≠
        formatType.loop [protoDelimClause] := by
  decide

/-- C5, amended. Plain-text rule: a clause with type `text` and subtype `plain` selects
the plain-text format if and only if its `version` parameter is absent, empty or equal
to `0.0.4`; when the parameter is present with a non-empty value other than `0.0.4` the
clause is skipped, `formatType.loop (c :: rest) = formatType.loop rest`. -/
theorem formatType_text_rule (c : Accept) (hT : c.Typ = "text") (hS : c.SubType = "plain") :
    (formatType.body c = some FmtText ↔
        (mapHas c.Params "version" = false ∨ mapIndex c.Params "version" = "" ∨
          mapIndex c.Params "version" = "0.0.4")) ∧
      (mapHas c.Params "version" = true → mapIndex c.Params "version" ≠ "" →
        mapIndex c.Params "version" ≠ "0.0.4" →
        ∀ rest : List Accept, formatType.loop (c :: rest) = formatType.loop rest) := by
  have hbody : formatType.body c = formatType.textCheck c := by
    unfold formatType.body
    rw [protoCheck_none_of_text c hT]
  constructor
  · rw [hbody]
    unfold formatType.textCheck
    simp only [hT, hS, true_and]
    constructor
    · intro h
      split_ifs at h with hv
      rcases hv with hv | hv
      · exact Or.inr (Or.inr hv)
      · exact Or.inr (Or.inl hv)
    · intro h
      have hv : mapIndex c.Params "version" = "0.0.4" ∨ mapIndex c.Params "version" = "" := by
        rcases h with h | h | h
        · exact Or.inr (mapIndex_of_mapHas_false _ _ h)
        · exact Or.inr h
        · exact Or.inl h
      rw [if_pos hv]
  · intro _ hne hne4 rest
    apply loop_skip
    rw [hbody]
    unfold formatType.textCheck
    simp only [hT, hS, true_and]
    rw [if_neg]
    rintro (h | h)
    · exact hne4 h
    · exact hne h

/-- Witness of C5, amended: `text/plain;version=0.0.3` is skipped ahead of a delimited
protocol buffer clause. -/
theorem formatType_text_rule_witness :
    formatType.loop (⟨"text", "plain", ⟨1, 0⟩, [("version", "0.0.3")]⟩ :: [protoDelimClause]) =
      formatType.loop [protoDelimClause] :=
  (formatType_text_rule ⟨"text", "plain", ⟨1, 0⟩, [("version", "0.0.3")]⟩ rfl rfl).2
    (by decide) (by decide) (by decide) [protoDelimClause]

/-- C6. Permissive skip of an unknown encoding: a clause with the protocol buffer type,
subtype and `proto` parameter whose `encoding` is absent or is none of `delimited`, `text`
and `compact-text` is skipped, `formatType.loop (c :: rest) = formatType.loop rest`, and
alone it gives the default `FmtText`. -/
theorem formatType_unknown_encoding (c : Accept) (rest : List Accept)
    (hT : c.Typ = "application") (hS : c.SubType = "vnd.google.protobuf")
    (hP : mapIndex c.Params "proto" = "io.prometheus.client.MetricFamily")
    (hE : mapHas c.Params "encoding" = false ∨
      (mapIndex c.Params "encoding" ≠ "delimited" ∧ mapIndex c.Params "encoding" ≠ "text" ∧
        mapIndex c.Params "encoding" ≠ "compact-text")) :
    formatType.loop (c :: rest) = formatType.loop rest ∧ formatType.loop [c] = FmtText := by
  have hE3 : mapIndex c.Params "encoding" ≠ "delimited" ∧
      mapIndex c.Params "encoding" ≠ "text" ∧
      mapIndex c.Params "encoding" ≠ "compact-text" := by
    rcases hE with h | h
    · rw [mapIndex_of_mapHas_false _ _ h]
      decide
    · exact h
  have hbody : formatType.body c = none := by
    unfold formatType.body
    have hguard : c.Typ = protoType ∧ c.SubType = protoSubType ∧
        mapIndex c.Params "proto" = protoProto := ⟨hT, hS, hP⟩
    have hp : formatType.protoCheck c = none := by
      unfold formatType.protoCheck
      rw [if_pos hguard, if_neg hE3.1, if_neg hE3.2.1, if_neg hE3.2.2]
    rw [hp]
    exact textCheck_none_of_application c hT
  exact ⟨loop_skip c rest hbody, by rw [loop_skip c [] hbody]; rfl⟩

/-- Witness of C6: `encoding=json` on an otherwise right protocol buffer clause, ahead of
a delimited protocol buffer clause and alone. -/
theorem formatType_unknown_encoding_witness :
    formatType.loop
        (⟨"application", "vnd.google.protobuf", ⟨1, 0⟩,
            [("proto", "io.prometheus.client.MetricFamily"), ("encoding", "json")]⟩ ::
          [protoDelimClause]) = formatType.loop [protoDelimClause] ∧
      formatType.loop
        [⟨"application", "vnd.google.protobuf", ⟨1, 0⟩,
            [("proto", "io.prometheus.client.MetricFamily"), ("encoding", "json")]⟩] = FmtText :=
  formatType_unknown_encoding
    ⟨"application", "vnd.google.protobuf", ⟨1, 0⟩,
      [("proto", "io.prometheus.client.MetricFamily"), ("encoding", "json")]⟩
    [protoDelimClause] rfl rfl (by decide) (Or.inr (by decide))

/-! ## The encoder factory -/

/-- C7. `New` binds the encoder of the negotiated format: it returns
`ct = formatType (h.Get "Accept")`; its encoder writes with `pbutil.WriteDelimited` when
`ct = FmtProtoDelim`, prints `v.String()` when `ct = FmtProtoCompact`, prints
`proto.MarshalTextString(v)` when `ct = FmtProtoText` and writes with
`text.MetricFamilyToText` when `ct = FmtText`; the default branch of the switch is taken
exactly when `ct = FmtText`, and the four content types are pairwise distinct. -/
theorem New_binds_encoder {σ Err MF : Type} (X : Codecs σ Err MF)
    (ParseAccept : String → List Accept) (w : Writer σ Err) (h : Header) :
    (New X ParseAccept w h).2 = formatType ParseAccept (h.Get "Accept") ∧
      ((New X ParseAccept w h).2 = FmtProtoDelim → ∀ v sink,
        (New X ParseAccept w h).1.Encode v sink =
          ((X.WriteDelimited w v sink).1, (X.WriteDelimited w v sink).2.2)) ∧
      ((New X ParseAccept w h).2 = FmtProtoCompact → ∀ v sink,
        (New X ParseAccept w h).1.Encode v sink =
          ((Fprintln w (X.MetricFamilyString v) sink).1,
            (Fprintln w (X.MetricFamilyString v) sink).2.2)) ∧
      ((New X ParseAccept w h).2 = FmtProtoText → ∀ v sink,
        (New X ParseAccept w h).1.Encode v sink =
          ((Fprintln w (X.MarshalTextString v) sink).1,
            (Fprintln w (X.MarshalTextString v) sink).2.2)) ∧
      ((New X ParseAccept w h).2 = FmtText → ∀ v sink,
        (New X ParseAccept w h).1.Encode v sink =
          ((X.MetricFamilyToText w v sink).1, (X.MetricFamilyToText w v sink).2.2)) ∧
      (New.switch (New X ParseAccept w h).2 = New.Case.default ↔
        (New X ParseAccept w h).2 = FmtText) ∧
      (FmtText ≠ FmtProtoDelim ∧ FmtText ≠ FmtProtoText ∧ FmtText ≠ FmtProtoCompact ∧
        FmtProtoDelim ≠ FmtProtoText ∧ FmtProtoDelim ≠ FmtProtoCompact ∧
        FmtProtoText ≠ FmtProtoCompact) := by
  have hsw : ∀ ct : String, ct = FmtText → New.switch ct = New.Case.default := by
    intro ct hct
    subst hct
    decide
  refine ⟨rfl, ?_, ?_, ?_, ?_, ?_, by decide⟩
  · intro hct v sink
    have hs : New.switch (formatType ParseAccept (h.Get "Accept")) = New.Case.protoDelim := by
      have : formatType ParseAccept (h.Get "Accept") = FmtProtoDelim := hct
      rw [this]; decide
    simp only [New, encoder.Encode, hs, New.closure]
  · intro hct v sink
    have hs : New.switch (formatType ParseAccept (h.Get "Accept")) = New.Case.protoCompact := by
      have : formatType ParseAccept (h.Get "Accept") = FmtProtoCompact := hct
      rw [this]; decide
    simp only [New, encoder.Encode, hs, New.closure]
  · intro hct v sink
    have hs : New.switch (formatType ParseAccept (h.Get "Accept")) = New.Case.protoText := by
      have : formatType ParseAccept (h.Get "Accept") = FmtProtoText := hct
      rw [this]; decide
    simp only [New, encoder.Encode, hs, New.closure]
  · intro hct v sink
    have hs : New.switch (formatType ParseAccept (h.Get "Accept")) = New.Case.default :=
      hsw _ hct
    simp only [New, encoder.Encode, hs, New.closure]
  · constructor
    · intro hd
      have hd' : New.switch (formatType ParseAccept (h.Get "Accept")) = New.Case.default := hd
      show formatType ParseAccept (h.Get "Accept") = FmtText
      rcases loop_mem (ParseAccept (h.Get "Accept")) with hm | hm | hm | hm
      · exact hm
      · have hm' : formatType ParseAccept (h.Get "Accept") = FmtProtoDelim := hm
        rw [hm'] at hd'
        exact absurd hd' (by decide)
      · have hm' : formatType ParseAccept (h.Get "Accept") = FmtProtoText := hm
        rw [hm'] at hd'
        exact absurd hd' (by decide)
      · have hm' : formatType ParseAccept (h.Get "Accept") = FmtProtoCompact := hm
        rw [hm'] at hd'
        exact absurd hd' (by decide)
    · intro hct
      exact hsw _ hct

/-- Witness of C7: with the header `Accept: application/vnd.google.protobuf; ...;
encoding=text` the encoder of `New` prints the text marshalling of the record and a
newline to the buffer. -/
theorem New_binds_encoder_witness :
    (New sampleCodecs ParseAccept bufferWriter
        [("Accept", ["application/vnd.google.protobuf;proto=io.prometheus.client.MetricFamily;encoding=text"])]).1.Encode
        "up" "" =
      ((Fprintln bufferWriter (sampleCodecs.MarshalTextString "up") "").1,
        (Fprintln bufferWriter (sampleCodecs.MarshalTextString "up") "").2.2) :=
  (New_binds_encoder sampleCodecs ParseAccept bufferWriter
    [("Accept", ["application/vnd.google.protobuf;proto=io.prometheus.client.MetricFamily;encoding=text"])]).2.2.2.1
    (by decide) "up" ""

/-! ## Negotiation of whole header strings, with the parser modelled from the specification -/

/-- C8. Weighted negotiation: for the header `text/plain;q=0.5,
application/vnd.google.protobuf;proto=io.prometheus.client.MetricFamily;encoding=delimited;q=0.9`
and for its two ranges in the opposite order, the parser ranks the protocol buffer clause
first and `formatType` returns `FmtProtoDelim`. -/
theorem formatType_weighted :
    formatType ParseAccept
        "text/plain;q=0.5, application/vnd.google.protobuf;proto=io.prometheus.client.MetricFamily;encoding=delimited;q=0.9"
        = FmtProtoDelim ∧
      formatType ParseAccept
        "application/vnd.google.protobuf;proto=io.prometheus.client.MetricFamily;encoding=delimited;q=0.9, text/plain;q=0.5"
        = FmtProtoDelim ∧
      ParseAccept
        "text/plain;q=0.5, application/vnd.google.protobuf;proto=io.prometheus.client.MetricFamily;encoding=delimited;q=0.9"
        = [⟨"application", "vnd.google.protobuf", ⟨9, 1⟩,
            [("proto", "io.prometheus.client.MetricFamily"), ("encoding", "delimited")]⟩,
           ⟨"text", "plain", ⟨5, 1⟩, []⟩] ∧
      ParseAccept
        "application/vnd.google.protobuf;proto=io.prometheus.client.MetricFamily;encoding=delimited;q=0.9, text/plain;q=0.5"
        = ParseAccept
        "text/plain;q=0.5, application/vnd.google.protobuf;proto=io.prometheus.client.MetricFamily;encoding=delimited;q=0.9" := by
  decide

/-- C9. Single-range protocol buffer headers: the header
`application/vnd.google.protobuf;proto=io.prometheus.client.MetricFamily;encoding=e`
negotiates to `FmtProtoDelim` for `e = delimited`, to `FmtProtoText` for `e = text` and to
`FmtProtoCompact` for `e = compact-text`. -/
theorem formatType_single_proto :
    formatType ParseAccept
        "application/vnd.google.protobuf;proto=io.prometheus.client.MetricFamily;encoding=delimited"
        = FmtProtoDelim ∧
      formatType ParseAccept
        "application/vnd.google.protobuf;proto=io.prometheus.client.MetricFamily;encoding=text"
        = FmtProtoText ∧
      formatType ParseAccept
        "application/vnd.google.protobuf;proto=io.prometheus.client.MetricFamily;encoding=compact-text"
        = FmtProtoCompact := by
  decide

/-- C10. Single-range text headers: `text/plain;version=0.0.4` and `text/plain` each parse
to one clause that the text check takes, `text/plain;version=0.0.3` parses to one clause
that no check takes, and all three negotiate to `text/plain; version=0.0.4`. -/
theorem formatType_single_text :
    ((ParseAccept "text/plain;version=0.0.4").map formatType.textCheck = [some FmtText] ∧
        formatType ParseAccept "text/plain;version=0.0.4" = "text/plain; version=0.0.4") ∧
      ((ParseAccept "text/plain").map formatType.textCheck = [some FmtText] ∧
        formatType ParseAccept "text/plain" = "text/plain; version=0.0.4") ∧
      ((ParseAccept "text/plain;version=0.0.3").map formatType.body = [none] ∧
        formatType ParseAccept "text/plain;version=0.0.3" = "text/plain; version=0.0.4") := by
  decide

/-! ## What the encoder does and what the negotiation depends on -/

/-- C11. Error propagation: whichever encoder `New` returns, `Encode v` leaves the sink as
the one call of the bound encoding function leaves it and returns that call's error
unchanged (`none` when it succeeds); only the byte count is dropped. -/
theorem New_encode_error {σ Err MF : Type} (X : Codecs σ Err MF)
    (ParseAccept : String → List Accept) (w : Writer σ Err) (h : Header) (v : MF) (sink : σ) :
    ((New X ParseAccept w h).2 = FmtText ∧
        (New X ParseAccept w h).1.Encode v sink =
          ((X.MetricFamilyToText w v sink).1, (X.MetricFamilyToText w v sink).2.2)) ∨
      ((New X ParseAccept w h).2 = FmtProtoDelim ∧
        (New X ParseAccept w h).1.Encode v sink =
          ((X.WriteDelimited w v sink).1, (X.WriteDelimited w v sink).2.2)) ∨
      ((New X ParseAccept w h).2 = FmtProtoText ∧
        (New X ParseAccept w h).1.Encode v sink =
          ((w.Write sink (X.MarshalTextString v ++ "\n")).1,
            (w.Write sink (X.MarshalTextString v ++ "\n")).2.2)) ∨
      ((New X ParseAccept w h).2 = FmtProtoCompact ∧
        (New X ParseAccept w h).1.Encode v sink =
          ((w.Write sink (X.MetricFamilyString v ++ "\n")).1,
            (w.Write sink (X.MetricFamilyString v ++ "\n")).2.2)) := by
  rcases New_cases X ParseAccept w h with ⟨hc, he⟩ | ⟨hc, he⟩ | ⟨hc, he⟩ | ⟨hc, he⟩
  · exact Or.inl ⟨hc, by rw [he]; rfl⟩
  · exact Or.inr (Or.inl ⟨hc, by rw [he]; rfl⟩)
  · exact Or.inr (Or.inr (Or.inl ⟨hc, by rw [he]; rfl⟩))
  · exact Or.inr (Or.inr (Or.inr ⟨hc, by rw [he]; rfl⟩))

/-- C15. Record separator: the encoders bound to `FmtProtoText` and `FmtProtoCompact` hand
the writer, in one `Write`, the text rendering of the record followed by one newline; on a
sink that grows by the bytes of every successful `Write`, a successful `Encode v` leaves
the former content followed by exactly the rendering and one newline. -/
theorem New_record_separator {Err MF : Type} (X : Codecs String Err MF)
    (ParseAccept : String → List Accept) (w : Writer String Err) (h : Header) (v : MF)
    (sink : String)
    (hw : ∀ s bytes, (w.Write s bytes).2.2 = none → (w.Write s bytes).1 = s ++ bytes)
    (hok : ((New X ParseAccept w h).1.Encode v sink).2 = none) :
    ((New X ParseAccept w h).2 = FmtProtoText →
        (New X ParseAccept w h).1.Encode v sink =
            ((w.Write sink (X.MarshalTextString v ++ "\n")).1,
              (w.Write sink (X.MarshalTextString v ++ "\n")).2.2) ∧
          ((New X ParseAccept w h).1.Encode v sink).1 =
            sink ++ (X.MarshalTextString v ++ "\n")) ∧
      ((New X ParseAccept w h).2 = FmtProtoCompact →
        (New X ParseAccept w h).1.Encode v sink =
            ((w.Write sink (X.MetricFamilyString v ++ "\n")).1,
              (w.Write sink (X.MetricFamilyString v ++ "\n")).2.2) ∧
          ((New X ParseAccept w h).1.Encode v sink).1 =
            sink ++ (X.MetricFamilyString v ++ "\n")) := by
  obtain ⟨d1, d2, d3, d4, d5, d6⟩ := fmt_distinct
  constructor
  · intro hct
    have he : (New X ParseAccept w h).1 = New.closure X w New.Case.protoText := by
      rcases New_cases X ParseAccept w h with ⟨hc, he⟩ | ⟨hc, he⟩ | ⟨hc, he⟩ | ⟨hc, he⟩
      · exact absurd (hc.symm.trans hct) d2
      · exact absurd (hc.symm.trans hct) d4
      · exact he
      · exact absurd (hct.symm.trans hc) d6
    rw [he] at hok ⊢
    exact ⟨rfl, hw sink _ hok⟩
  · intro hct
    have he : (New X ParseAccept w h).1 = New.closure X w New.Case.protoCompact := by
      rcases New_cases X ParseAccept w h with ⟨hc, he⟩ | ⟨hc, he⟩ | ⟨hc, he⟩ | ⟨hc, he⟩
      · exact absurd (hc.symm.trans hct) d3
      · exact absurd (hc.symm.trans hct) d5
      · exact absurd (hc.symm.trans hct) d6
      · exact he
    rw [he] at hok ⊢
    exact ⟨rfl, hw sink _ hok⟩

/-- Witness of C15: on a buffer that holds `old`, the compact-text encoder leaves `old`
followed by the rendering of the record and one newline. -/
theorem New_record_separator_witness :
    ((New sampleCodecs ParseAccept bufferWriter
        [("Accept", ["application/vnd.google.protobuf;proto=io.prometheus.client.MetricFamily;encoding=compact-text"])]).1.Encode
        "up" "old").1 = "old" ++ ("Sup" ++ "\n") :=
  ((New_record_separator sampleCodecs ParseAccept bufferWriter
    [("Accept", ["application/vnd.google.protobuf;proto=io.prometheus.client.MetricFamily;encoding=compact-text"])]
    "up" "old" (fun _ _ _ => rfl) rfl).2 (by decide)).2

/-- C17. Irrelevant fields: two clause lists of equal length whose clauses agree pairwise on
type, subtype and the values of `proto`, `encoding` and `version` give the same result;
the weight and the other parameters are not read. -/
theorem formatType_irrelevant_fields (l₁ l₂ : List Accept)
    (h : List.Forall₂ agreeOnRead l₁ l₂) :
    l₁.length = l₂.length ∧ formatType.loop l₁ = formatType.loop l₂ ∧
      ∀ p₁ p₂ : String → List Accept, ∀ a₁ a₂ : String, p₁ a₁ = l₁ → p₂ a₂ = l₂ →
        formatType p₁ a₁ = formatType p₂ a₂ := by
  have hloop : formatType.loop l₁ = formatType.loop l₂ := by
    induction h with
    | nil => rfl
    | cons hab _ ih =>
      simp only [formatType.loop, body_congr _ _ hab, ih]
  refine ⟨h.length_eq, hloop, ?_⟩
  intro p₁ p₂ a₁ a₂ h₁ h₂
  unfold formatType
  rw [h₁, h₂]
  exact hloop

/-- Witness of C17: two lists that differ in the weights and in a parameter `charset`. -/
theorem formatType_irrelevant_fields_witness :
    formatType.loop
        [⟨"text", "plain", ⟨1, 0⟩, [("version", "0.0.3")]⟩,
          ⟨"application", "vnd.google.protobuf", ⟨5, 1⟩,
            [("proto", "io.prometheus.client.MetricFamily"), ("encoding", "text")]⟩] =
      formatType.loop
        [⟨"text", "plain", ⟨3, 1⟩, [("charset", "utf-8"), ("version", "0.0.3")]⟩,
          ⟨"application", "vnd.google.protobuf", ⟨9, 1⟩,
            [("encoding", "text"), ("proto", "io.prometheus.client.MetricFamily")]⟩] :=
  (formatType_irrelevant_fields _ _
    (List.Forall₂.cons (by decide) (List.Forall₂.cons (by decide) List.Forall₂.nil))).2.1

/-- C18. Wildcard ranges never select a format: a clause whose type or subtype is `*`
passes neither check and is skipped; a list of wildcard clauses only gives `FmtText`; and
a protocol buffer clause that follows a wildcard clause decides the result. -/
theorem formatType_wildcard (c : Accept) (hc : isWildcard c) :
    formatType.protoCheck c = none ∧ formatType.textCheck c = none ∧
      (∀ rest : List Accept, formatType.loop (c :: rest) = formatType.loop rest) ∧
      (∀ l : List Accept, (∀ x ∈ l, isWildcard x) → formatType.loop l = FmtText) ∧
      (∀ (p : Accept) (ct : String) (rest : List Accept), formatType.protoCheck p = some ct →
        formatType.loop (c :: p :: rest) = ct) := by
  have hb := body_none_of_wildcard c hc
  have hsplit : formatType.protoCheck c = none ∧ formatType.textCheck c = none := by
    unfold formatType.body at hb
    cases hp : formatType.protoCheck c with
    | none => rw [hp] at hb; exact ⟨rfl, hb⟩
    | some ct => rw [hp] at hb; exact absurd hb (by simp)
  refine ⟨hsplit.1, hsplit.2, fun rest => loop_skip c rest hb, ?_, ?_⟩
  · intro l hl
    have h0 := loop_append_of_none l [] (fun x hx => body_none_of_wildcard x (hl x hx))
    rw [List.append_nil] at h0
    rw [h0]
    rfl
  · intro p ct rest hp
    rw [loop_skip c _ hb]
    simp only [formatType.loop, body_eq_of_check p ct (Or.inl hp)]

/-- Witness of C18: `*/*` ahead of a delimited protocol buffer clause. -/
theorem formatType_wildcard_witness :
    formatType.loop (⟨"*", "*", ⟨1, 0⟩, []⟩ :: [protoDelimClause]) =
        formatType.loop [protoDelimClause] ∧
      formatType.loop [⟨"text", "*", ⟨1, 0⟩, []⟩, ⟨"application", "*", ⟨1, 0⟩, []⟩] = FmtText :=
  ⟨(formatType_wildcard ⟨"*", "*", ⟨1, 0⟩, []⟩ (Or.inl rfl)).2.2.1 [protoDelimClause],
    (formatType_wildcard ⟨"*", "*", ⟨1, 0⟩, []⟩ (Or.inl rfl)).2.2.2.1
      [⟨"text", "*", ⟨1, 0⟩, []⟩, ⟨"application", "*", ⟨1, 0⟩, []⟩] (by decide)⟩

/-! ## The loop against the reference algorithm of the specification -/

/-- Counterexample to C16 as stated: on the clause `text/plain` with `version` present and
empty followed by a compact-text protocol buffer clause, the reference algorithm with
rule (b) as worded (version absent or equal to `0.0.4`) gives `FmtProtoCompact` and the
loop of `formatType` gives `FmtText`. -/
theorem reference_strict_version_counterexample :
    referenceNegotiate versionAbsentOrEqual [emptyVersionClause, protoCompactClause] =
        FmtProtoCompact ∧
      formatType.loop [emptyVersionClause, protoCompactClause] = FmtText ∧
      formatType.loop [emptyVersionClause, protoCompactClause] ≠
        referenceNegotiate versionAbsentOrEqual [emptyVersionClause, protoCompactClause] := by
  decide

/-- C16, amended. No clause passes both the protocol buffer check and the text check, and
the loop of `formatType`, which runs the text check after an unsuccessful protocol buffer
check, returns on every clause list the result of the reference algorithm (rule (a), else
rule (b), else continue) whose rule (b) takes a version that is absent, empty or `0.0.4`. -/
theorem formatType_refines_reference (l : List Accept) :
    formatType.loop l = referenceNegotiate versionAbsentEmptyOrEqual l ∧
      (∀ c : Accept, ¬ (formatType.protoCheck c ≠ none ∧ formatType.textCheck c ≠ none)) ∧
      ∀ (ParseAccept : String → List Accept) (as : String),
        formatType ParseAccept as =
          referenceNegotiate versionAbsentEmptyOrEqual (ParseAccept as) := by
  have hloop : ∀ l : List Accept,
      formatType.loop l = referenceNegotiate versionAbsentEmptyOrEqual l := by
    intro l
    induction l with
    | nil => rfl
    | cons c rest ih =>
      simp only [formatType.loop, referenceNegotiate, body_eq_referenceRule c, ih]
  refine ⟨hloop l, ?_, fun ParseAccept as => hloop (ParseAccept as)⟩
  rintro c ⟨hp, ht⟩
  cases hpc : formatType.protoCheck c with
  | none => exact hp hpc
  | some ct =>
    exact ht (textCheck_none_of_application c (protoCheck_typ c ct hpc))

/-! ## Lemmas on the parser model -/

theorem gt_iff (a b : Weight) : a.gt b = true ↔ weightValue b < weightValue a := by
  unfold Weight.gt weightValue
  rw [decide_eq_true_eq, div_lt_div_iff₀ (by positivity) (by positivity)]
  norm_cast

theorem preferred_iff (a b : Accept) : preferred a b = true ↔ rankKey b < rankKey a := by
  unfold preferred rankKey
  rw [Prod.Lex.lt_iff]
  simp only [Bool.or_eq_true, Bool.and_eq_true, Bool.not_eq_true', decide_eq_true_eq]
  have h1 := gt_iff a.Q b.Q
  have h2 := gt_iff b.Q a.Q
  constructor
  · rintro (h | ⟨h, hs⟩)
    · exact Or.inl (h1.mp h)
    · by_cases hlt : weightValue b.Q < weightValue a.Q
      · exact Or.inl hlt
      · have : ¬ weightValue a.Q < weightValue b.Q := by
          intro hc
          rw [h2.mpr hc] at h
          exact Bool.noConfusion h
        exact Or.inr ⟨le_antisymm (not_lt.mp this) (not_lt.mp hlt), hs⟩
  · rintro (h | ⟨h, hs⟩)
    · exact Or.inl (h1.mpr h)
    · refine Or.inr ⟨?_, hs⟩
      cases hg : b.Q.gt a.Q with
      | false => rfl
      | true =>
        have := h2.mp hg
        rw [h] at this
        exact absurd this (lt_irrefl _)

theorem preferred_false_iff (a b : Accept) : preferred a b = false ↔ rankKey a ≤ rankKey b := by
  rw [← not_lt, ← preferred_iff]
  cases preferred a b <;> simp

theorem tied_iff (a b : Accept) : tied a b = true ↔ rankKey a = rankKey b := by
  unfold tied
  simp only [Bool.and_eq_true, Bool.not_eq_true', preferred_false_iff]
  exact ⟨fun h => le_antisymm h.1 h.2, fun h => ⟨le_of_eq h, le_of_eq h.symm⟩⟩

theorem mem_rankInsert (a x : Accept) (l : List Accept) :
    x ∈ rankInsert a l ↔ x = a ∨ x ∈ l := by
  induction l with
  | nil => simp [rankInsert]
  | cons b rest ih =>
    unfold rankInsert
    split_ifs
    · simp only [List.mem_cons, ih]
      tauto
    · simp only [List.mem_cons]

theorem rankInsert_perm (a : Accept) (l : List Accept) : (rankInsert a l).Perm (a :: l) := by
  induction l with
  | nil => exact List.Perm.refl _
  | cons b rest ih =>
    unfold rankInsert
    split_ifs
    · exact (List.Perm.cons b ih).trans (List.Perm.swap a b rest)
    · exact List.Perm.refl _

theorem rank_perm (l : List Accept) : (rank l).Perm l := by
  induction l with
  | nil => exact List.Perm.refl _
  | cons a rest ih => exact (rankInsert_perm a (rank rest)).trans (List.Perm.cons a ih)

theorem rankInsert_sorted (a : Accept) (l : List Accept)
    (h : l.Pairwise (fun x y => rankKey y ≤ rankKey x)) :
    (rankInsert a l).Pairwise (fun x y => rankKey y ≤ rankKey x) := by
  induction l with
  | nil => simp [rankInsert]
  | cons b rest ih =>
    rw [List.pairwise_cons] at h
    unfold rankInsert
    split_ifs with hp
    · rw [List.pairwise_cons]
      refine ⟨?_, ih h.2⟩
      intro y hy
      rcases (mem_rankInsert a y rest).mp hy with rfl | hy
      · exact le_of_lt ((preferred_iff b y).mp hp)
      · exact h.1 y hy
    · have hba : rankKey b ≤ rankKey a := by
        rw [← preferred_false_iff]
        cases hq : preferred b a with
        | false => rfl
        | true => exact absurd hq hp
      rw [List.pairwise_cons]
      refine ⟨?_, List.pairwise_cons.mpr h⟩
      intro y hy
      rcases List.mem_cons.mp hy with rfl | hy
      · exact hba
      · exact le_trans (h.1 y hy) hba

theorem rank_sorted (l : List Accept) :
    (rank l).Pairwise (fun x y => rankKey y ≤ rankKey x) := by
  induction l with
  | nil => exact List.Pairwise.nil
  | cons a rest ih => exact rankInsert_sorted a (rank rest) ih

theorem rankInsert_filter_tied (k a : Accept) (l : List Accept) :
    (rankInsert a l).filter (fun x => tied k x) = (a :: l).filter (fun x => tied k x) := by
  induction l with
  | nil => rfl
  | cons b rest ih =>
    unfold rankInsert
    split_ifs with hp
    · have hlt := (preferred_iff b a).mp hp
      rw [List.filter_cons, ih]
      by_cases hb : tied k b = true
      · have ha : tied k a = false := by
          cases hq : tied k a with
          | false => rfl
          | true =>
            have e1 := (tied_iff k a).mp hq
            have e2 := (tied_iff k b).mp hb
            rw [← e1, ← e2] at hlt
            exact absurd hlt (lt_irrefl _)
        simp [List.filter_cons, hb, ha]
      · simp [List.filter_cons, hb]
    · rfl

theorem rank_filter_tied (k : Accept) (l : List Accept) :
    (rank l).filter (fun x => tied k x) = l.filter (fun x => tied k x) := by
  induction l with
  | nil => rfl
  | cons a rest ih =>
    show (rankInsert a (rank rest)).filter _ = _
    rw [rankInsert_filter_tied, List.filter_cons, List.filter_cons, ih]

theorem splitOn_of_not_mem (sep : Char) (l : List Char) (h : sep ∉ l) : splitOn sep l = [l] := by
  induction l with
  | nil => rfl
  | cons c cs ih =>
    have hc : c ≠ sep := fun e => h (e ▸ List.mem_cons_self c cs)
    have hcs : sep ∉ cs := fun e => h (List.mem_cons_of_mem c e)
    simp only [splitOn, if_neg hc, ih hcs]

theorem splitOn_append (sep : Char) (s t : List Char) (h : sep ∉ s) :
    splitOn sep (s ++ sep :: t) = s :: splitOn sep t := by
  induction s with
  | nil => simp [splitOn]
  | cons c cs ih =>
    have hc : c ≠ sep := fun e => h (e ▸ List.mem_cons_self c cs)
    have hcs : sep ∉ cs := fun e => h (List.mem_cons_of_mem c e)
    show splitOn sep (c :: (cs ++ sep :: t)) = _
    rw [splitOn, if_neg hc, ih hcs]

theorem splitOn_joinWith (sep : Char) (segs : List (List Char)) (hne : segs ≠ [])
    (h : ∀ s ∈ segs, sep ∉ s) : splitOn sep (joinWith sep segs) = segs := by
  induction segs with
  | nil => exact absurd rfl hne
  | cons s rest ih =>
    cases rest with
    | nil => exact splitOn_of_not_mem sep s (h s (List.mem_cons_self s []))
    | cons t rest =>
      have hs : sep ∉ s := h s (List.mem_cons_self s _)
      have hrest : ∀ x ∈ t :: rest, sep ∉ x := fun x hx => h x (List.mem_cons_of_mem s hx)
      simp only [joinWith]
      rw [splitOn_append sep s _ hs, ih (List.cons_ne_nil t rest) hrest]

theorem parseSegment_nil : parseSegment [] = none := by decide

theorem segments_joinSegments (segs : List (List Char)) (h : ∀ s ∈ segs, ',' ∉ s) :
    (splitOn ',' (joinSegments segs).data).filterMap parseSegment =
      segs.filterMap parseSegment := by
  cases segs with
  | nil =>
    show List.filterMap parseSegment [[]] = []
    simp [List.filterMap_cons, parseSegment_nil]
  | cons s rest =>
    show List.filterMap parseSegment (splitOn ',' (joinWith ',' (s :: rest))) = _
    rw [splitOn_joinWith ',' (s :: rest) (List.cons_ne_nil s rest) h]

theorem ParseAccept_joinSegments (segs : List (List Char)) (h : ∀ s ∈ segs, ',' ∉ s) :
    ParseAccept (joinSegments segs) = rank (segs.filterMap parseSegment) := by
  unfold ParseAccept
  rw [segments_joinSegments segs h]

theorem parseParams_none_of_bad (params : List (List Char))
    (h : params.any (fun p =>
      match weightText? p with
      | some t => (parseWeight t).isNone
      | none => false) = true) :
    ∀ a : Accept, parseParams a params = none := by
  induction params with
  | nil => simp at h
  | cons p rest ih =>
    intro a
    rw [List.any_cons, Bool.or_eq_true] at h
    unfold parseParams
    cases hs : splitOn '=' p with
    | nil =>
      simp only
      rcases h with h | h
      · simp [weightText?, hs] at h
      · exact ih h a
    | cons key tl =>
      cases tl with
      | nil =>
        simp only
        rcases h with h | h
        · simp [weightText?, hs] at h
        · exact ih h a
      | cons v vs =>
        simp only
        by_cases hq : trim key = ['q']
        · rw [if_pos hq]
          cases hw : parseWeight (trim (List.intercalate ['='] (v :: vs))) with
          | none => rfl
          | some w =>
            simp only
            rcases h with h | h
            · simp [weightText?, hs, hq, hw] at h
            · exact ih h _
        · rw [if_neg hq]
          rcases h with h | h
          · simp [weightText?, hs, hq] at h
          · exact ih h _

theorem parseParams_Q_of_noWeight (params : List (List Char))
    (h : params.all (fun p => (weightText? p).isNone) = true) :
    ∀ a a' : Accept, parseParams a params = some a' → a'.Q = a.Q := by
  induction params with
  | nil =>
    intro a a' ha
    simp only [parseParams, Option.some.injEq] at ha
    rw [ha]
  | cons p rest ih =>
    intro a a' ha
    rw [List.all_cons, Bool.and_eq_true] at h
    unfold parseParams at ha
    cases hs : splitOn '=' p with
    | nil =>
      simp only [hs] at ha
      exact ih h.2 a a' ha
    | cons key tl =>
      cases tl with
      | nil =>
        simp only [hs] at ha
        exact ih h.2 a a' ha
      | cons v vs =>
        simp only [hs] at ha
        by_cases hq : trim key = ['q']
        · have := h.1
          simp [weightText?, hs, hq] at this
        · rw [if_neg hq] at ha
          have hq' := ih h.2 _ a' ha
          exact hq'

theorem parseSegment_none_of_lacksSlash (seg : List Char) (h : lacksSlash seg = true) :
    parseSegment seg = none := by
  unfold lacksSlash at h
  unfold parseSegment
  cases hs : splitOn ';' (trim seg) with
  | nil => rfl
  | cons range params =>
    rw [hs] at h
    have hmem : '/' ∉ range := by simpa using h
    simp only [splitOn_of_not_mem '/' range hmem]

theorem parseSegment_none_of_badWeight (seg : List Char) (h : badWeight seg = true) :
    parseSegment seg = none := by
  unfold badWeight paramPieces at h
  unfold parseSegment
  cases hs : splitOn ';' (trim seg) with
  | nil => rfl
  | cons range params =>
    rw [hs] at h
    simp only [List.tail_cons] at h
    simp only
    split
    · exact parseParams_none_of_bad params h _
    · rfl

theorem parseSegment_Q_of_noWeight (seg : List Char) (a : Accept)
    (h : noWeightParam seg = true) (ha : parseSegment seg = some a) : a.Q = ⟨1, 0⟩ := by
  unfold noWeightParam paramPieces at h
  unfold parseSegment at ha
  cases hs : splitOn ';' (trim seg) with
  | nil => rw [hs] at ha; exact absurd ha (by simp)
  | cons range params =>
    rw [hs] at h ha
    simp only [List.tail_cons] at h
    simp only at ha
    split at ha
    · exact parseParams_Q_of_noWeight params h _ a ha
    · exact absurd ha (by simp)

/-! ## The ranking and the malformed segments of the parser model -/

theorem weightValue_lt_iff (a b : Weight) :
    weightValue a < weightValue b ↔ a.mant * 10 ^ b.scale < b.mant * 10 ^ a.scale := by
  unfold weightValue
  rw [div_lt_div_iff₀ (by positivity) (by positivity)]
  norm_cast

theorem weightValue_le_iff (a b : Weight) :
    weightValue a ≤ weightValue b ↔ a.mant * 10 ^ b.scale ≤ b.mant * 10 ^ a.scale := by
  rw [← not_lt, weightValue_lt_iff, not_lt]

theorem weightValue_eq_iff (a b : Weight) :
    weightValue a = weightValue b ↔ a.mant * 10 ^ b.scale = b.mant * 10 ^ a.scale := by
  rw [le_antisymm_iff, weightValue_le_iff, weightValue_le_iff, le_antisymm_iff]

theorem specificity_le_iff (a b : Accept) :
    specificity b ≤ specificity a ↔
      (a.Typ = "*" → b.Typ = "*") ∧
        (a.Typ = "*" ∨ a.SubType = "*" → b.Typ = "*" ∨ b.SubType = "*") := by
  unfold specificity
  by_cases h1 : a.Typ = "*" <;> by_cases h2 : a.SubType = "*" <;>
    by_cases h3 : b.Typ = "*" <;> by_cases h4 : b.SubType = "*" <;>
    simp [h1, h2, h3, h4]

theorem specificity_lt_iff (a b : Accept) :
    specificity a < specificity b ↔
      (a.Typ = "*" ∧ b.Typ ≠ "*") ∨
        ((a.Typ = "*" ∨ a.SubType = "*") ∧ b.Typ ≠ "*" ∧ b.SubType ≠ "*") := by
  unfold specificity
  by_cases h1 : a.Typ = "*" <;> by_cases h2 : a.SubType = "*" <;>
    by_cases h3 : b.Typ = "*" <;> by_cases h4 : b.SubType = "*" <;>
    simp [h1, h2, h3, h4]

theorem specificity_eq_iff (a b : Accept) :
    specificity a = specificity b ↔
      (a.Typ = "*" ↔ b.Typ = "*") ∧
        (a.Typ = "*" ∨ a.SubType = "*" ↔ b.Typ = "*" ∨ b.SubType = "*") := by
  unfold specificity
  by_cases h1 : a.Typ = "*" <;> by_cases h2 : a.SubType = "*" <;>
    by_cases h3 : b.Typ = "*" <;> by_cases h4 : b.SubType = "*" <;>
    simp [h1, h2, h3, h4]

theorem rankKey_eq_iff (a b : Accept) :
    rankKey a = rankKey b ↔
      weightValue a.Q = weightValue b.Q ∧ specificity a = specificity b := by
  unfold rankKey
  constructor
  · intro h
    have h' := congrArg ofLex h
    simp only [ofLex_toLex, Prod.mk.injEq] at h'
    exact h'
  · rintro ⟨h1, h2⟩
    rw [h1, h2]

theorem mem_of_mem_splitOn (sep : Char) (l p : List Char) (c : Char)
    (hp : p ∈ splitOn sep l) (hc : c ∈ p) : c ∈ l := by
  induction l generalizing p with
  | nil =>
    simp only [splitOn, List.mem_singleton] at hp
    rw [hp] at hc
    exact hc
  | cons x xs ih =>
    unfold splitOn at hp
    by_cases hx : x = sep
    · rw [if_pos hx] at hp
      rcases List.mem_cons.mp hp with h | h
      · rw [h] at hc
        exact absurd hc (List.not_mem_nil c)
      · exact List.mem_cons_of_mem x (ih p h hc)
    · rw [if_neg hx] at hp
      cases hs : splitOn sep xs with
      | nil =>
        rw [hs] at hp
        simp only [List.mem_singleton] at hp
        rw [hp] at hc
        rcases List.mem_cons.mp hc with h | h
        · rw [h]; exact List.mem_cons_self x xs
        · exact absurd h (List.not_mem_nil c)
      | cons piece pieces =>
        rw [hs] at hp
        simp only at hp
        rcases List.mem_cons.mp hp with h | h
        · rw [h] at hc
          rcases List.mem_cons.mp hc with h' | h'
          · rw [h']; exact List.mem_cons_self x xs
          · exact List.mem_cons_of_mem x
              (ih piece (by rw [hs]; exact List.mem_cons_self piece pieces) h')
        · exact List.mem_cons_of_mem x
            (ih p (by rw [hs]; exact List.mem_cons_of_mem piece h) hc)

theorem mem_of_mem_trim (l : List Char) (c : Char) (hc : c ∈ trim l) : c ∈ l := by
  unfold trim at hc
  rw [List.mem_reverse] at hc
  have h1 := (List.dropWhile_sublist (fun c => decide (c = ' '))).subset hc
  rw [List.mem_reverse] at h1
  exact (List.dropWhile_sublist (fun c => decide (c = ' '))).subset h1

theorem weightText?_none_of_no_q (p : List Char) (h : 'q' ∉ p) : weightText? p = none := by
  unfold weightText?
  cases hs : splitOn '=' p with
  | nil => rfl
  | cons key tl =>
    cases tl with
    | nil => rfl
    | cons v vs =>
      simp only
      rw [if_neg]
      intro hk
      have hq : 'q' ∈ trim key := by rw [hk]; exact List.mem_singleton.mpr rfl
      exact h (mem_of_mem_splitOn '=' p key 'q' (by rw [hs]; exact List.mem_cons_self _ _)
        (mem_of_mem_trim key 'q' hq))

theorem noWeightParam_of_no_q (seg : List Char) (h : 'q' ∉ seg) : noWeightParam seg = true := by
  unfold noWeightParam paramPieces
  rw [List.all_eq_true]
  intro p hp
  have hp' : p ∈ splitOn ';' (trim seg) := List.mem_of_mem_tail hp
  have hq : 'q' ∉ p := fun hc =>
    h (mem_of_mem_trim seg 'q' (mem_of_mem_splitOn ';' (trim seg) p 'q' hp' hc))
  rw [weightText?_none_of_no_q p hq]
  rfl

theorem ParseAccept_pair (header : String) (s₁ s₂ : List Char) (a b : Accept)
    (hdata : header.data = s₁ ++ ',' :: s₂) (h₁ : ',' ∉ s₁) (h₂ : ',' ∉ s₂)
    (ha : parseSegment s₁ = some a) (hb : parseSegment s₂ = some b) :
    ParseAccept header = if preferred b a = true then [b, a] else [a, b] := by
  unfold ParseAccept
  rw [hdata, splitOn_append ',' s₁ s₂ h₁, splitOn_of_not_mem ',' s₂ h₂]
  simp only [List.filterMap_cons, ha, hb, List.filterMap_nil, rank, rankInsert]

/-- C12. Candidate ordering: the clause sequence that `formatType` scans is a rearrangement
of the parsed segments in which a clause is never lighter than a later one and, at equal
weight, a clause with a wildcard is never ahead of a more exact one; clauses of equal
weight and exactness keep their input order; a segment without `q` has weight 1; of two
ranges the later one goes first exactly when it is heavier, or as heavy and more exact;
so of two ranges of equal weight and exactness the one listed first, when it matches,
decides the result. A weight `q` is the number `q.mant / 10 ^ q.scale`, compared here by
cross multiplication. -/
theorem ParseAccept_ordering (header : String) :
    (ParseAccept header).Perm ((splitOn ',' header.data).filterMap parseSegment) ∧
      (ParseAccept header).Pairwise (fun a b =>
        b.Q.mant * 10 ^ a.Q.scale ≤ a.Q.mant * 10 ^ b.Q.scale ∧
          (b.Q.mant * 10 ^ a.Q.scale = a.Q.mant * 10 ^ b.Q.scale →
            (a.Typ = "*" → b.Typ = "*") ∧
              (a.Typ = "*" ∨ a.SubType = "*" → b.Typ = "*" ∨ b.SubType = "*"))) ∧
      (∀ k : Accept,
        (ParseAccept header).filter (fun x => decide
            (k.Q.mant * 10 ^ x.Q.scale = x.Q.mant * 10 ^ k.Q.scale ∧
              (k.Typ = "*" ↔ x.Typ = "*") ∧
              (k.Typ = "*" ∨ k.SubType = "*" ↔ x.Typ = "*" ∨ x.SubType = "*"))) =
          ((splitOn ',' header.data).filterMap parseSegment).filter (fun x => decide
            (k.Q.mant * 10 ^ x.Q.scale = x.Q.mant * 10 ^ k.Q.scale ∧
              (k.Typ = "*" ↔ x.Typ = "*") ∧
              (k.Typ = "*" ∨ k.SubType = "*" ↔ x.Typ = "*" ∨ x.SubType = "*")))) ∧
      (∀ (seg : List Char) (a : Accept), seg ∈ splitOn ',' header.data →
        ('q' ∉ seg ∨ noWeightParam seg = true) → parseSegment seg = some a →
        a.Q = ⟨1, 0⟩) ∧
      (∀ (s₁ s₂ : List Char) (a b : Accept),
        header.data = s₁ ++ ',' :: s₂ → ',' ∉ s₁ → ',' ∉ s₂ →
        parseSegment s₁ = some a → parseSegment s₂ = some b →
        ParseAccept header =
          if a.Q.mant * 10 ^ b.Q.scale < b.Q.mant * 10 ^ a.Q.scale ∨
              (a.Q.mant * 10 ^ b.Q.scale = b.Q.mant * 10 ^ a.Q.scale ∧
                ((a.Typ = "*" ∧ b.Typ ≠ "*") ∨
                  ((a.Typ = "*" ∨ a.SubType = "*") ∧ b.Typ ≠ "*" ∧ b.SubType ≠ "*")))
          then [b, a] else [a, b]) ∧
      (∀ (s₁ s₂ : List Char) (a b : Accept) (ct : String),
        header.data = s₁ ++ ',' :: s₂ → ',' ∉ s₁ → ',' ∉ s₂ →
        parseSegment s₁ = some a → parseSegment s₂ = some b →
        a.Q.mant * 10 ^ b.Q.scale = b.Q.mant * 10 ^ a.Q.scale →
        (a.Typ = "*" ↔ b.Typ = "*") →
        (a.Typ = "*" ∨ a.SubType = "*" ↔ b.Typ = "*" ∨ b.SubType = "*") →
        formatType.body a = some ct → formatType ParseAccept header = ct) := by
  have hpref : ∀ a b : Accept, preferred b a = true ↔
      (a.Q.mant * 10 ^ b.Q.scale < b.Q.mant * 10 ^ a.Q.scale ∨
        (a.Q.mant * 10 ^ b.Q.scale = b.Q.mant * 10 ^ a.Q.scale ∧
          ((a.Typ = "*" ∧ b.Typ ≠ "*") ∨
            ((a.Typ = "*" ∨ a.SubType = "*") ∧ b.Typ ≠ "*" ∧ b.SubType ≠ "*")))) := by
    intro a b
    rw [preferred_iff]
    unfold rankKey
    rw [Prod.Lex.lt_iff]
    simp only [weightValue_lt_iff, weightValue_eq_iff, specificity_lt_iff]
  refine ⟨rank_perm _, ?_, ?_, ?_, ?_, ?_⟩
  · refine List.Pairwise.imp ?_ (rank_sorted _)
    intro a b hle
    unfold rankKey at hle
    rw [Prod.Lex.le_iff] at hle
    simp only [weightValue_lt_iff, weightValue_eq_iff, specificity_le_iff] at hle
    rcases hle with h | ⟨h, hs⟩
    · exact ⟨le_of_lt h, fun he => absurd he (ne_of_lt h)⟩
    · exact ⟨le_of_eq h, fun _ => hs⟩
  · intro k
    have hfun : (fun x : Accept => decide
        (k.Q.mant * 10 ^ x.Q.scale = x.Q.mant * 10 ^ k.Q.scale ∧
          (k.Typ = "*" ↔ x.Typ = "*") ∧
          (k.Typ = "*" ∨ k.SubType = "*" ↔ x.Typ = "*" ∨ x.SubType = "*"))) =
        fun x => tied k x := by
      funext x
      rw [Bool.eq_iff_iff, decide_eq_true_eq, tied_iff, rankKey_eq_iff, weightValue_eq_iff,
        specificity_eq_iff]
    rw [hfun]
    exact rank_filter_tied k _
  · intro seg a _ hno ha
    rcases hno with hno | hno
    · exact parseSegment_Q_of_noWeight seg a (noWeightParam_of_no_q seg hno) ha
    · exact parseSegment_Q_of_noWeight seg a hno ha
  · intro s₁ s₂ a b hdata h₁ h₂ ha hb
    rw [ParseAccept_pair header s₁ s₂ a b hdata h₁ h₂ ha hb]
    by_cases hp : preferred b a = true
    · rw [if_pos hp, if_pos ((hpref a b).mp hp)]
    · rw [if_neg hp, if_neg (fun hc => hp ((hpref a b).mpr hc))]
  · intro s₁ s₂ a b ct hdata h₁ h₂ ha hb hw ht hs hct
    have hp : ¬ preferred b a = true := by
      rw [hpref]
      rintro (h | ⟨_, h | h⟩)
      · exact absurd hw (ne_of_lt h)
      · exact h.2 (ht.mp h.1)
      · rcases hs.mp h.1 with h' | h'
        · exact h.2.1 h'
        · exact h.2.2 h'
    unfold formatType
    rw [ParseAccept_pair header s₁ s₂ a b hdata h₁ h₂ ha hb, if_neg hp]
    simp only [formatType.loop, hct]

/-- Witness of C12: in `*/*,text/plain` the exact range goes ahead of the wildcard, in
`image/png;q=0.1,text/html;q=0.9` the heavier range goes first, a range without `q` ties
with `q=1.0` and keeps its place, and of `text/plain` and a delimited protocol buffer
range, which tie, the one listed first decides. -/
theorem ParseAccept_ordering_witness :
    ParseAccept "*/*,text/plain" =
        [⟨"text", "plain", ⟨1, 0⟩, []⟩, ⟨"*", "*", ⟨1, 0⟩, []⟩] ∧
      ParseAccept "image/png;q=0.1,text/html;q=0.9" =
        [⟨"text", "html", ⟨9, 1⟩, []⟩, ⟨"image", "png", ⟨1, 1⟩, []⟩] ∧
      ParseAccept "image/png,text/html;q=1.0" =
        [⟨"image", "png", ⟨1, 0⟩, []⟩, ⟨"text", "html", ⟨10, 1⟩, []⟩] ∧
      formatType ParseAccept
        "text/plain,application/vnd.google.protobuf;proto=io.prometheus.client.MetricFamily;encoding=delimited"
        = FmtText :=
  ⟨((ParseAccept_ordering "*/*,text/plain").2.2.2.2.1 "*/*".data "text/plain".data
      ⟨"*", "*", ⟨1, 0⟩, []⟩ ⟨"text", "plain", ⟨1, 0⟩, []⟩
      (by decide) (by decide) (by decide) (by decide) (by decide)).trans (by decide),
    ((ParseAccept_ordering "image/png;q=0.1,text/html;q=0.9").2.2.2.2.1
      "image/png;q=0.1".data "text/html;q=0.9".data
      ⟨"image", "png", ⟨1, 1⟩, []⟩ ⟨"text", "html", ⟨9, 1⟩, []⟩
      (by decide) (by decide) (by decide) (by decide) (by decide)).trans (by decide),
    ((ParseAccept_ordering "image/png,text/html;q=1.0").2.2.2.2.1
      "image/png".data "text/html;q=1.0".data
      ⟨"image", "png", ⟨1, 0⟩, []⟩ ⟨"text", "html", ⟨10, 1⟩, []⟩
      (by decide) (by decide) (by decide) (by decide) (by decide)).trans (by decide),
    (ParseAccept_ordering
      "text/plain,application/vnd.google.protobuf;proto=io.prometheus.client.MetricFamily;encoding=delimited").2.2.2.2.2
      "text/plain".data
      "application/vnd.google.protobuf;proto=io.prometheus.client.MetricFamily;encoding=delimited".data
      ⟨"text", "plain", ⟨1, 0⟩, []⟩ protoDelimClause FmtText
      (by decide) (by decide) (by decide) (by decide) (by decide) (by decide) (by decide)
      (by decide) (by decide)⟩

/-- C13. Malformed segments are skipped: a segment without `/` in its media range or with an
unparsable `q` gives no clause, so the header negotiates as the header without that
segment does, and a header of such segments only negotiates to `FmtText`. -/
theorem ParseAccept_skips_malformed (pre post : List (List Char)) (seg : List Char)
    (hpre : ∀ s ∈ pre, ',' ∉ s) (hpost : ∀ s ∈ post, ',' ∉ s) (hseg : ',' ∉ seg)
    (hbad : lacksSlash seg = true ∨ badWeight seg = true) :
    parseSegment seg = none ∧
      ParseAccept (joinSegments (pre ++ seg :: post)) = ParseAccept (joinSegments (pre ++ post)) ∧
      formatType ParseAccept (joinSegments (pre ++ seg :: post)) =
        formatType ParseAccept (joinSegments (pre ++ post)) ∧
      (∀ segs : List (List Char),
        (∀ s ∈ segs, ',' ∉ s ∧ (lacksSlash s = true ∨ badWeight s = true)) →
        formatType ParseAccept (joinSegments segs) = FmtText) := by
  have hnone : ∀ s : List Char, lacksSlash s = true ∨ badWeight s = true →
      parseSegment s = none := by
    intro s hs
    rcases hs with hs | hs
    · exact parseSegment_none_of_lacksSlash s hs
    · exact parseSegment_none_of_badWeight s hs
  have hall : ∀ s ∈ pre ++ seg :: post, ',' ∉ s := by
    intro s hs
    rcases List.mem_append.mp hs with h | h
    · exact hpre s h
    · rcases List.mem_cons.mp h with rfl | h
      · exact hseg
      · exact hpost s h
  have hall' : ∀ s ∈ pre ++ post, ',' ∉ s := by
    intro s hs
    rcases List.mem_append.mp hs with h | h
    · exact hpre s h
    · exact hpost s h
  have hparse : ParseAccept (joinSegments (pre ++ seg :: post)) =
      ParseAccept (joinSegments (pre ++ post)) := by
    rw [ParseAccept_joinSegments _ hall, ParseAccept_joinSegments _ hall']
    simp only [List.filterMap_append, List.filterMap_cons, hnone seg hbad]
  refine ⟨hnone seg hbad, hparse, ?_, ?_⟩
  · unfold formatType
    rw [hparse]
  · intro segs hsegs
    have hempty : segs.filterMap parseSegment = [] := by
      rw [List.filterMap_eq_nil_iff]
      intro s hs
      exact hnone s (hsegs s hs).2
    unfold formatType
    rw [ParseAccept_joinSegments segs (fun s hs => (hsegs s hs).1), hempty]
    rfl

/-- Witness of C13: the segments `foo` and `text/plain;q=high` dropped from a header, and a
header of the two alone. -/
theorem ParseAccept_skips_malformed_witness :
    ParseAccept (joinSegments ["image/png".data, "foo".data, "text/plain;version=0.0.3".data]) =
        ParseAccept (joinSegments ["image/png".data, "text/plain;version=0.0.3".data]) ∧
      formatType ParseAccept (joinSegments ["foo".data, "text/plain;q=high".data]) = FmtText :=
  ⟨(ParseAccept_skips_malformed ["image/png".data] ["text/plain;version=0.0.3".data] "foo".data
      (by decide) (by decide) (by decide) (Or.inl (by decide))).2.1,
    (ParseAccept_skips_malformed [] [] "foo".data
      (by decide) (by decide) (by decide) (Or.inl (by decide))).2.2.2
      ["foo".data, "text/plain;q=high".data] (by decide)⟩

end expfmt
